import Mathlib

/-
  Shallow embedding of the kazu-rs repository (crates bdmc-rs and
  mentabotix-rs) used to check the natural-language specification
  against the code.

  Conventions of the embedding:
  * Rust `f64` quantities that the verified claims only compare, scale and
    truncate (durations, speeds, multipliers) are modelled as exact
    rationals (ℚ); the cast `as i32` / `as i64` (truncation toward zero)
    is `ratTrunc`.
  * Rust `i32` / `i64` / `usize` are modelled as unbounded Int / Nat;
    overflow and saturation do not matter at the inputs the claims are
    about.
  * The process-wide atomic id counters are modelled by passing the fresh
    id explicitly to each constructor.
  * A zero-argument Rust closure is a Lean function from Unit; a closure
    that is re-evaluated over time (a breaker) is a function from the
    index of the call, so that call number k denotes the result of the
    k-th evaluation.
  * `HashMap` values and `HashSet` contents are modelled order
    independently: the in-degree map is a function `Nat → Option Int`
    (key present iff the value is `some`), and a returned set is either a
    membership predicate or a deduplicated list.
  * Real time in the delay primitives is idealized: each sleep advances
    the clock by exactly one polling interval and breaker evaluation is
    instantaneous, so the elapsed time after k sleeps is k * interval.
-/

namespace KazuRs

/-- Truncation toward zero of a rational, modelling the Rust casts
`as i32` and `as i64` applied to an f64 value: the numerator divided by
the denominator with Int.tdiv, which rounds toward zero. -/
def ratTrunc (q : ℚ) : Int := q.num.tdiv (q.den : Int)

/-! ## botix.rs : SpeedPattern, MovingState, drift -/

/-- Motor speed configuration for different control patterns
(enum `SpeedPattern` in botix.rs). -/
inductive SpeedPattern where
  | full (speed : Int)
  | leftRight (left right : Int)
  | individual (front_left rear_left front_right rear_right : Int)
deriving DecidableEq, Repr

/-- Configuration for movement calculations (struct `MovementConfig`). -/
structure MovementConfig where
  track_width : ℚ
  diagonal_multiplier : ℚ
deriving DecidableEq, Repr

/-- `MovementConfig::default()` : track_width 100.0, diagonal_multiplier 1.53. -/
def MovementConfig.default : MovementConfig :=
  { track_width := 100, diagonal_multiplier := 153 / 100 }

/-- Fixed axis for drift movement (enum `FixedAxis`). -/
inductive FixedAxis where
  | frontLeft
  | rearLeft
  | rearRight
  | frontRight
deriving DecidableEq, Repr

/-- A movement state of the robot (struct `MovingState`).  The entry and
exit hook lists hold opaque zero-argument procedures; no verified claim
inspects them, so they are carried as an opaque count-free list of unit
functions. -/
structure MovingState where
  id : Nat
  speed_pattern : SpeedPattern

/-- `MovingState::drift(fixed_axis, speed)`; the fresh id from the global
counter is passed explicitly. -/
def MovingState.drift (fixed_axis : FixedAxis) (speed : Int) (id : Nat) :
    MovingState :=
  let config := MovementConfig.default
  let diagonal_speed := ratTrunc ((speed : ℚ) * config.diagonal_multiplier)
  let pattern :=
    match fixed_axis with
    | .frontLeft => SpeedPattern.individual 0 speed diagonal_speed speed
    | .rearLeft => SpeedPattern.individual speed 0 speed diagonal_speed
    | .rearRight => SpeedPattern.individual diagonal_speed speed 0 speed
    | .frontRight => SpeedPattern.individual speed diagonal_speed speed 0
  { id := id, speed_pattern := pattern }

/-! ## botix.rs : MovingTransition -/

/-- A transition between movement states (struct `MovingTransition`).
`to_states` is the label → state HashMap as an association list with
distinct labels; `breaker` is the optional interrupt predicate. -/
structure MovingTransition where
  id : Nat
  duration : ℚ
  breaker : Option (Unit → Bool)
  check_interval : ℚ
  from_states : List MovingState
  to_states : List (String × MovingState)

/-- `MovingTransition::new(duration)` : fails when `duration < 0.0`,
otherwise builds the transition with default fields.  The fresh id is
passed explicitly. -/
def MovingTransition.new (id : Nat) (duration : ℚ) :
    Except String MovingTransition :=
  if duration < 0 then
    .error "Duration cannot be negative"
  else
    .ok { id := id
          duration := duration
          breaker := none
          check_interval := 1 / 100
          from_states := []
          to_states := [] }

/-! ## botix.rs : Botix graph registry -/

/-- The id list of the source states of a transition. -/
def fromIds (t : MovingTransition) : List Nat :=
  t.from_states.map MovingState.id

/-- The id list of the destination states of a transition, one entry per
label of the `to_states` map. -/
def toIds (t : MovingTransition) : List Nat :=
  t.to_states.map (fun p => p.2.id)

/-- One iteration of the `from_states` loop of `Botix::start_states` :
`states_indegree.entry(state.id()).or_insert(0)` keeps an existing value
and inserts 0 for a missing key. -/
def addFromEntry (m : Nat → Option Int) (s : Nat) : Nat → Option Int :=
  fun k => if k = s then some ((m s).getD 0) else m k

/-- One iteration of the `to_states` loop of `Botix::start_states` :
`*states_indegree.entry(state.id()).or_insert(0) += 1`. -/
def addToEntry (m : Nat → Option Int) (s : Nat) : Nat → Option Int :=
  fun k => if k = s then some ((m s).getD 0 + 1) else m k

/-- Processing of one transition inside `Botix::start_states` : first all
source states get an entry, then every destination occurrence increments. -/
def processTransition (m : Nat → Option Int) (t : MovingTransition) :
    Nat → Option Int :=
  (toIds t).foldl addToEntry ((fromIds t).foldl addFromEntry m)

/-- The `states_indegree` map built by `Botix::start_states` over the
whole transition pool, starting from the empty HashMap. -/
def statesIndegree (ts : List MovingTransition) : Nat → Option Int :=
  ts.foldl processTransition (fun _ => none)

/-- Membership test of the HashSet returned by `Botix::start_states` :
the ids whose entry in `states_indegree` is exactly 0. -/
def isStartState (ts : List MovingTransition) (k : Nat) : Bool :=
  statesIndegree ts k == some 0

/-- All state ids referenced by the pool, in iteration order with
duplicates; its deduplication is the key set of `states_indegree`. -/
def allIds (ts : List MovingTransition) : List Nat :=
  ts.flatMap (fun t => fromIds t ++ toIds t)

/-- The HashSet returned by `Botix::start_states`, materialized as a
duplicate-free list (HashSet iteration order is unspecified; only
membership and cardinality are used). -/
def startStatesList (ts : List MovingTransition) : List Nat :=
  ((allIds ts).dedup).filter (fun k => isStartState ts k)

/-- `Botix::validate` : succeeds iff the start set has exactly one
element, otherwise returns the structural error value. -/
def validate (ts : List MovingTransition) : Except String Unit :=
  if (startStatesList ts).length ≠ 1 then
    .error "Must have exactly one start state"
  else
    .ok ()

/-- Number of occurrences of id `k` among the destination slots of the
pool: the in-degree the `start_states` loop computes for a present key. -/
def toOcc (ts : List MovingTransition) (k : Nat) : Nat :=
  (ts.flatMap toIds).count k

/-- Number of transitions of the pool that name id `k` as a destination
(the in-degree as the specification words it: incremented once per
transition that names the state). -/
def indegTrans (ts : List MovingTransition) (k : Nat) : Nat :=
  (ts.filter (fun t => k ∈ toIds t)).length

/-- Id `k` is referenced by the pool: it appears as a source or a
destination of some transition. -/
def isReferenced (ts : List MovingTransition) (k : Nat) : Prop :=
  k ∈ allIds ts

instance (ts : List MovingTransition) (k : Nat) :
    Decidable (isReferenced ts k) := by
  unfold isReferenced; infer_instance

/-- A linear chain of n transitions over states 0, 1, ..., n : transition
j goes from state j to state j+1 under the label "next".  Used to check
the claim about N linearly chained transitions. -/
def chainTransition (j : Nat) : MovingTransition :=
  { id := j
    duration := 1
    breaker := none
    check_interval := 1 / 100
    from_states := [{ id := j, speed_pattern := SpeedPattern.full 0 }]
    to_states := [("next", { id := j + 1, speed_pattern := SpeedPattern.full 0 })] }

/-- The pool of n linearly chained transitions. -/
def chain (n : Nat) : List MovingTransition :=
  (List.range n).map chainTransition

/-! ## controller.rs : CloseLoopController -/

/-- A motor id (code_sign) and direction (struct `MotorInfo`). -/
structure MotorInfo where
  code_sign : Int
  direction : Int
deriving DecidableEq, Repr

/-- `CLASSIC_MIS` : the default 4-motor setup. -/
def CLASSIC_MIS : List MotorInfo :=
  [⟨1, 1⟩, ⟨2, 1⟩, ⟨3, 1⟩, ⟨4, 1⟩]

/-- The controller state (struct `CloseLoopController`).  The serial port
is `none` when no transport is attached; an attached port is modelled by
the list of command strings written to it so far.  The context HashMap
and serial configuration are irrelevant to every verified claim and are
omitted. -/
structure CloseLoopController where
  serial : Option (List String)
  motor_infos : List MotorInfo
deriving DecidableEq, Repr

/-- The uniqueness loop of `CloseLoopController::new` : insert each
MotorInfo into a set, reporting false at the first one already present. -/
def uniqueCheck : List MotorInfo → List MotorInfo → Bool
  | [], _ => true
  | mi :: rest, seen =>
      if mi ∈ seen then false else uniqueCheck rest (mi :: seen)

/-- `CloseLoopController::new(motor_infos, _, _, None)` : defaults the
motor list to `CLASSIC_MIS`, rejects duplicate MotorInfo entries, and
otherwise returns the controller with no transport attached.  (Opening a
port is external IO and the verified claims construct without a port.) -/
def CloseLoopController.new (motor_infos : Option (List MotorInfo)) :
    Except String CloseLoopController :=
  let mis := motor_infos.getD CLASSIC_MIS
  if uniqueCheck mis [] then
    .ok { serial := none, motor_infos := mis }
  else
    .error "Motor infos must be unique"

/-- The framed ASCII command `set_motors_speed` concatenates: one
`{code_sign}v{adjusted_speed}\r` frame per motor, where the adjusted
speed is `(speed * direction) as i32`. -/
def speedCommand (mis : List MotorInfo) (speeds : List ℚ) : String :=
  String.join ((mis.zip speeds).map (fun p =>
    toString p.1.code_sign ++ "v"
      ++ toString (ratTrunc (p.2 * (p.1.direction : ℚ))) ++ "\x0d"))

/-- `CloseLoopController::set_motors_speed` : fails when the speed list
length differs from the motor count (before anything is written); with a
transport attached it appends the framed command to the port; with no
transport it logs a warning and succeeds without writing.  A transport
write error would propagate, but the model port always accepts writes;
no verified claim concerns write failures. -/
def CloseLoopController.set_motors_speed (c : CloseLoopController)
    (speeds : List ℚ) : Except String CloseLoopController :=
  if speeds.length ≠ c.motor_infos.length then
    .error "Length of speeds must equal the number of motors"
  else
    match c.serial with
    | some written =>
        .ok { c with serial := some (written ++ [speedCommand c.motor_infos speeds]) }
    | none => .ok c

/-! ## controller.rs : the breaker-delay primitives

Time is idealized: after k sleeps the elapsed time is k * interval, and
`breaker j` is the boolean produced by the j-th evaluation of the
breaker closure (evaluation 0 is the initial check before any sleep,
evaluation j ≥ 1 happens right after the j-th sleep).  The loop
`while start_time.elapsed() < delay_duration` is given enough fuel to
terminate; every theorem assumes fuel * interval ≥ delay, which makes
the fuel bound unreachable. -/

/-- The polling loop of `delay_with_breaker`, entered with k sleeps done:
while the elapsed time k * interval is below the delay, sleep once and
re-evaluate the breaker, stopping when it returns true.  Returns the
total number of sleeps performed. -/
def dwbLoop (breaker : Nat → Bool) (delay interval : ℚ) :
    Nat → Nat → Nat
  | 0, k => k
  | fuel + 1, k =>
      if (k : ℚ) * interval < delay then
        if breaker (k + 1) then k + 1
        else dwbLoop breaker delay interval fuel (k + 1)
      else k

/-- `CloseLoopController::delay_with_breaker` : initial breaker check
before any sleep; on true, immediate return with zero sleeps; otherwise
the polling loop.  Returns the number of sleeps performed (the idealized
elapsed time is that count times the interval). -/
def delayWithBreaker (breaker : Nat → Bool) (delay interval : ℚ)
    (fuel : Nat) : Nat :=
  if breaker 0 then 0
  else dwbLoop breaker delay interval fuel 0

/-- The guard expression `matches!(result, _)` of
`delay_with_breaker_match` : a wildcard match, true for every value. -/
def matchesWildcard {T : Type} (_ : T) : Bool := true

/-- The polling loop of `delay_with_breaker_match`, entered with k sleeps
done and the latest breaker result in hand: while the elapsed time is
below the delay, sleep once and replace the result with a fresh breaker
evaluation.  Returns the sleep count and the last result. -/
def dwbMatchLoop {T : Type} (breaker : Nat → T) (delay interval : ℚ) :
    Nat → Nat → T → Nat × T
  | 0, k, last => (k, last)
  | fuel + 1, k, last =>
      if (k : ℚ) * interval < delay then
        dwbMatchLoop breaker delay interval fuel (k + 1) (breaker (k + 1))
      else (k, last)

/-- `CloseLoopController::delay_with_breaker_match` : evaluates the
breaker once, takes the early return only when `!matches!(result, _)`
holds, and otherwise polls for the whole delay, returning the last
breaker result; the sleep count is returned alongside. -/
def delayWithBreakerMatch {T : Type} (breaker : Nat → T)
    (delay interval : ℚ) (fuel : Nat) : Nat × T :=
  let result := breaker 0
  if !(matchesWildcard result) then (0, result)
  else dwbMatchLoop breaker delay interval fuel 0 result

/-! ## menta.rs : Menta sampler resolution -/

/-- Union type of the three sampler kinds (enum `Sampler`).  Sensor data
(f64) is modelled as ℚ; a zero-argument closure takes Unit. -/
inductive Sampler where
  | sequence (f : Unit → List ℚ)
  | indexed (f : Nat → ℚ)
  | direct (f : Unit → ℚ)

/-- The constructed updater (enum `UpdaterClosure`). -/
inductive UpdaterClosure where
  | sequence (f : Unit → List ℚ)
  | single (f : Unit → ℚ)

/-- Sampler usage configuration (struct `SamplerUsage`). -/
structure SamplerUsage where
  used_sampler_index : Nat
  required_data_indexes : List Nat

/-- Bit i of an i64 value: `(data >> i) & 1` with an arithmetic shift,
i.e. the floor shift followed by the low bit in two's complement. -/
def bitOf (data : Int) (i : Nat) : Int := (data >>> i) % 2

/-- `Menta::resolve_seq_sampler`.  The source indexes the sampled vector
directly (a panic when out of range); the model reads a missing index as
0, which no verified claim depends on. -/
def resolve_seq_sampler (sampler : Unit → List ℚ)
    (required_data_indexes : List Nat) : Except String UpdaterClosure :=
  match required_data_indexes with
  | [] => .ok (.sequence (fun u => sampler u))
  | [unique_index] =>
      .ok (.single (fun u => ((sampler u).get? unique_index).getD 0))
  | _ =>
      .ok (.sequence (fun u =>
        required_data_indexes.map (fun i => ((sampler u).get? i).getD 0)))

/-- `Menta::resolve_idx_sampler`. -/
def resolve_idx_sampler (sampler : Nat → ℚ)
    (required_data_indexes : List Nat) : Except String UpdaterClosure :=
  match required_data_indexes with
  | [] => .error "Must specify at least one required data index"
  | [unique_index] => .ok (.single (fun _ => sampler unique_index))
  | _ =>
      .ok (.sequence (fun _ =>
        required_data_indexes.map (fun i => sampler i)))

/-- `Menta::resolve_drc_sampler` : with one required index the reading is
cast to i64 and bit `unique_index` of it is returned as 0.0 / 1.0; with
several required indexes, one such bit per index. -/
def resolve_drc_sampler (sampler : Unit → ℚ)
    (required_data_indexes : List Nat) : Except String UpdaterClosure :=
  match required_data_indexes with
  | [] => .ok (.single (fun u => sampler u))
  | [unique_index] =>
      .ok (.single (fun u => ((bitOf (ratTrunc (sampler u)) unique_index : Int) : ℚ)))
  | _ =>
      .ok (.sequence (fun u =>
        required_data_indexes.map
          (fun i => ((bitOf (ratTrunc (sampler u)) i : Int) : ℚ))))

/-- `Menta::construct_updater` : rejects an empty usage list, consults
only the first usage, rejects an out-of-range sampler index, and
dispatches on the sampler kind. -/
def construct_updater (samplers : List Sampler)
    (usages : List SamplerUsage) : Except String UpdaterClosure :=
  match usages with
  | [] => .error "Can't resolve the empty usage list"
  | usage :: _ =>
      if h : samplers.length ≤ usage.used_sampler_index then
        .error "Sampler index out of bounds"
      else
        match samplers.get ⟨usage.used_sampler_index, by omega⟩ with
        | .sequence s => resolve_seq_sampler s usage.required_data_indexes
        | .indexed s => resolve_idx_sampler s usage.required_data_indexes
        | .direct s => resolve_drc_sampler s usage.required_data_indexes

/-- All source-state ids of the pool, with duplicates. -/
def fromAll (ts : List MovingTransition) : List Nat :=
  ts.flatMap fromIds

/-! ## Wheel accessors, used to state the drift claim -/

/-- The four wheels of the robot. -/
inductive Wheel where
  | frontLeft
  | rearLeft
  | frontRight
  | rearRight
deriving DecidableEq, Repr

/-- The wheel named by a fixed axis. -/
def FixedAxis.wheel : FixedAxis → Wheel
  | .frontLeft => .frontLeft
  | .rearLeft => .rearLeft
  | .rearRight => .rearRight
  | .frontRight => .frontRight

/-- The wheel diagonally opposite a wheel (front-left against
rear-right, rear-left against front-right). -/
def diagOpposite : Wheel → Wheel
  | .frontLeft => .rearRight
  | .rearLeft => .frontRight
  | .frontRight => .rearLeft
  | .rearRight => .frontLeft

/-- The wheel on the same axle on the other side. -/
def lateralOpposite : Wheel → Wheel
  | .frontLeft => .frontRight
  | .frontRight => .frontLeft
  | .rearLeft => .rearRight
  | .rearRight => .rearLeft

/-- The speed a pattern assigns to a wheel. -/
def getWheel (p : SpeedPattern) (w : Wheel) : Int :=
  match p with
  | .full s => s
  | .leftRight l r =>
      match w with
      | .frontLeft => l
      | .rearLeft => l
      | .frontRight => r
      | .rearRight => r
  | .individual fl rl fr rr =>
      match w with
      | .frontLeft => fl
      | .rearLeft => rl
      | .frontRight => fr
      | .rearRight => rr

/-- Whether a pattern is the per-wheel (Individual) layout. -/
def SpeedPattern.isIndividual : SpeedPattern → Bool
  | .individual _ _ _ _ => true
  | _ => false

/-- The drift pattern as the claim words it (refinement side, built from
the claim text and not from the source): the fixed-axis wheel is 0, the
wheel diagonally opposite it carries the truncated speed times the
default diagonal multiplier 1.53, and the remaining two wheels carry the
plain speed. -/
def driftClaimed (fixed_axis : FixedAxis) (speed : Int) : SpeedPattern :=
  let diag := ratTrunc ((speed : ℚ) * (153 / 100))
  let fw := fixed_axis.wheel
  let dw := diagOpposite fw
  let at_wheel := fun w => if w = fw then 0 else if w = dw then diag else speed
  SpeedPattern.individual (at_wheel .frontLeft) (at_wheel .rearLeft)
    (at_wheel .frontRight) (at_wheel .rearRight)

/-- The wheel that `MovingState::drift` actually sets to 0: the named
wheel for FrontLeft and RearLeft, but the front wheel of the other side
for RearRight and FrontRight. -/
def zeroWheel : FixedAxis → Wheel
  | .frontLeft => .frontLeft
  | .rearLeft => .rearLeft
  | .rearRight => .frontRight
  | .frontRight => .rearRight

/-! ## Lemmas about the in-degree computation of start_states -/

lemma foldl_addFromEntry (l : List Nat) (m : Nat → Option Int) (k : Nat) :
    (l.foldl addFromEntry m) k =
      if k ∈ l then some ((m k).getD 0) else m k := by
  induction l generalizing m with
  | nil => simp
  | cons s rest ih =>
    simp only [List.foldl_cons, ih]
    by_cases hk : k = s
    · subst hk
      simp [addFromEntry]
    · simp [addFromEntry, hk, List.mem_cons]

lemma foldl_addToEntry (l : List Nat) (m : Nat → Option Int) (k : Nat) :
    (l.foldl addToEntry m) k =
      if l.count k = 0 then m k
      else some ((m k).getD 0 + (l.count k : Int)) := by
  induction l generalizing m with
  | nil => simp
  | cons s rest ih =>
    simp only [List.foldl_cons, ih]
    by_cases hk : k = s
    · subst hk
      have hc : (k :: rest).count k = rest.count k + 1 := by
        simp [List.count_cons]
      by_cases hr : rest.count k = 0 <;>
        simp [addToEntry, hc, hr] <;> push_cast <;> ring
    · have hc : (s :: rest).count k = rest.count k := by
        simp [List.count_cons, hk]
      have hks : ¬(k = s) := hk
      by_cases hr : rest.count k = 0 <;> simp [addToEntry, hc, hr, hks]

lemma processTransition_apply (m : Nat → Option Int) (t : MovingTransition)
    (k : Nat) :
    processTransition m t k =
      if (toIds t).count k = 0 then
        (if k ∈ fromIds t then some ((m k).getD 0) else m k)
      else some ((m k).getD 0 + ((toIds t).count k : Int)) := by
  unfold processTransition
  rw [foldl_addToEntry, foldl_addFromEntry]
  by_cases h1 : (toIds t).count k = 0 <;> by_cases h2 : k ∈ fromIds t <;>
    simp [h1, h2]

lemma toOcc_cons (t : MovingTransition) (ts : List MovingTransition)
    (k : Nat) :
    toOcc (t :: ts) k = (toIds t).count k + toOcc ts k := by
  simp [toOcc, List.count_append]

lemma mem_fromAll_cons (t : MovingTransition) (ts : List MovingTransition)
    (k : Nat) :
    k ∈ fromAll (t :: ts) ↔ k ∈ fromIds t ∨ k ∈ fromAll ts := by
  simp [fromAll]

lemma foldl_processTransition (ts : List MovingTransition)
    (m : Nat → Option Int) (k : Nat) :
    (ts.foldl processTransition m) k =
      if toOcc ts k = 0 then
        (if k ∈ fromAll ts then some ((m k).getD 0) else m k)
      else some ((m k).getD 0 + (toOcc ts k : Int)) := by
  induction ts generalizing m with
  | nil => simp [toOcc, fromAll]
  | cons t ts ih =>
    simp only [List.foldl_cons]
    rw [ih]
    rw [processTransition_apply]
    rw [toOcc_cons]
    by_cases h1 : (toIds t).count k = 0 <;>
      by_cases h2 : toOcc ts k = 0 <;>
      by_cases h3 : k ∈ fromIds t <;>
      by_cases h4 : k ∈ fromAll ts <;>
      simp [h1, h2, h3, h4, mem_fromAll_cons] <;>
      push_cast <;> ring

lemma statesIndegree_eq (ts : List MovingTransition) (k : Nat) :
    statesIndegree ts k =
      if toOcc ts k = 0 then
        (if k ∈ fromAll ts then some 0 else none)
      else some (toOcc ts k : Int) := by
  unfold statesIndegree
  rw [foldl_processTransition]
  by_cases h1 : toOcc ts k = 0 <;> by_cases h2 : k ∈ fromAll ts <;>
    simp [h1, h2]

lemma isStartState_iff (ts : List MovingTransition) (k : Nat) :
    isStartState ts k = true ↔ (k ∈ fromAll ts ∧ toOcc ts k = 0) := by
  unfold isStartState
  rw [statesIndegree_eq]
  by_cases h1 : toOcc ts k = 0 <;> by_cases h2 : k ∈ fromAll ts <;>
    simp [h1, h2]

lemma indegTrans_eq_zero_iff (ts : List MovingTransition) (k : Nat) :
    indegTrans ts k = 0 ↔ toOcc ts k = 0 := by
  constructor
  · intro h
    rw [toOcc, List.count_eq_zero]
    intro hk
    obtain ⟨t, ht, hkt⟩ := List.mem_flatMap.mp hk
    have hnil := List.length_eq_zero.mp h
    have := List.filter_eq_nil_iff.mp hnil t ht
    simp only [decide_eq_true_eq] at this
    exact this hkt
  · intro h
    rw [indegTrans, List.length_eq_zero, List.filter_eq_nil_iff]
    intro t ht
    simp only [decide_eq_true_eq]
    intro hkt
    rw [toOcc, List.count_eq_zero] at h
    exact h (List.mem_flatMap.mpr ⟨t, ht, hkt⟩)

lemma toOcc_ne_zero_iff (ts : List MovingTransition) (k : Nat) :
    ¬toOcc ts k = 0 ↔ ∃ t ∈ ts, k ∈ toIds t := by
  rw [toOcc, List.count_eq_zero, not_not, List.mem_flatMap]

lemma mem_allIds_iff (ts : List MovingTransition) (k : Nat) :
    k ∈ allIds ts ↔ k ∈ fromAll ts ∨ ¬toOcc ts k = 0 := by
  rw [toOcc_ne_zero_iff]
  simp only [allIds, fromAll, List.mem_flatMap, List.mem_append]
  constructor
  · rintro ⟨t, ht, h | h⟩
    · exact Or.inl ⟨t, ht, h⟩
    · exact Or.inr ⟨t, ht, h⟩
  · rintro (⟨t, ht, h⟩ | ⟨t, ht, h⟩)
    · exact ⟨t, ht, Or.inl h⟩
    · exact ⟨t, ht, Or.inr h⟩

lemma isStart_mem_allIds {ts : List MovingTransition} {k : Nat}
    (h : isStartState ts k = true) : k ∈ allIds ts := by
  rw [isStartState_iff] at h
  exact (mem_allIds_iff ts k).mpr (Or.inl h.1)

lemma mem_startStatesList (ts : List MovingTransition) (k : Nat) :
    k ∈ startStatesList ts ↔ isStartState ts k = true := by
  unfold startStatesList
  rw [List.mem_filter, List.mem_dedup]
  constructor
  · exact fun h => h.2
  · exact fun h => ⟨isStart_mem_allIds h, h⟩

lemma nodup_startStatesList (ts : List MovingTransition) :
    (startStatesList ts).Nodup :=
  (List.nodup_dedup (allIds ts)).filter _

lemma validate_ok_iff (ts : List MovingTransition) :
    validate ts = .ok () ↔ ∃! k, isStartState ts k = true := by
  have hlen : validate ts = .ok () ↔ (startStatesList ts).length = 1 := by
    unfold validate
    by_cases h : (startStatesList ts).length = 1 <;> simp [h]
  rw [hlen]
  constructor
  · intro h
    obtain ⟨a, ha⟩ := List.length_eq_one.mp h
    refine ⟨a, ?_, ?_⟩
    · show isStartState ts a = true
      rw [← mem_startStatesList, ha]
      exact List.mem_singleton_self a
    · intro b hb
      have hmem : b ∈ startStatesList ts := (mem_startStatesList ts b).mpr hb
      rw [ha] at hmem
      exact List.mem_singleton.mp hmem
  · rintro ⟨a, ha, huniq⟩
    have hall : ∀ b ∈ startStatesList ts, b = a := by
      intro b hb
      exact huniq b ((mem_startStatesList ts b).mp hb)
    have hrep := List.eq_replicate_of_mem hall
    have hnodup := nodup_startStatesList ts
    rw [hrep] at hnodup
    have hle : (startStatesList ts).length ≤ 1 :=
      (List.nodup_replicate).mp hnodup
    have hpos : 0 < (startStatesList ts).length :=
      List.length_pos_of_mem ((mem_startStatesList ts a).mpr ha)
    omega

lemma mem_fromAll_chain (n k : Nat) :
    k ∈ fromAll (chain n) ↔ k < n := by
  simp [fromAll, chain, chainTransition, fromIds, List.mem_flatMap]

lemma chain_flatMap_toIds (n : Nat) :
    (chain n).flatMap toIds = (List.range n).map (fun j => j + 1) := by
  unfold chain
  induction (List.range n) with
  | nil => rfl
  | cons j l ih => simp [toIds, chainTransition, ih]

lemma toOcc_chain_eq_zero (n k : Nat) :
    toOcc (chain n) k = 0 ↔ ¬∃ j, j < n ∧ j + 1 = k := by
  rw [toOcc, chain_flatMap_toIds, List.count_eq_zero]
  simp [List.mem_map, List.mem_range]

lemma isStartState_chain (n k : Nat) (hn : 1 ≤ n) :
    isStartState (chain n) k = true ↔ k = 0 := by
  rw [isStartState_iff, mem_fromAll_chain, toOcc_chain_eq_zero]
  constructor
  · rintro ⟨hk, hno⟩
    by_contra h0
    exact hno ⟨k - 1, by omega, by omega⟩
  · rintro rfl
    exact ⟨by omega, by rintro ⟨j, hj, hj1⟩; omega⟩

/-! ## Claim C1 -/

/-- C1: for every transition pool, `start_states()` contains exactly the
ids referenced by the pool whose computed in-degree is 0, the in-degree
of a state being incremented once per transition that names it as a
destination (and every source state getting an entry that defaults to
0); consequently, appending a transition whose `to_states` names a
former start state removes that id from the start set. -/
theorem start_states_characterization (ts : List MovingTransition)
    (k : Nat) (t : MovingTransition) :
    (isStartState ts k = true ↔ (isReferenced ts k ∧ indegTrans ts k = 0))
    ∧ (isStartState ts k = true → k ∈ toIds t →
        isStartState (ts ++ [t]) k = false) := by
  constructor
  · rw [isStartState_iff, isReferenced, mem_allIds_iff, indegTrans_eq_zero_iff]
    constructor
    · rintro ⟨hf, ht⟩
      exact ⟨Or.inl hf, ht⟩
    · rintro ⟨hf | hocc, ht⟩
      · exact ⟨hf, ht⟩
      · exact absurd ht hocc
  · intro hstart hk
    refine Bool.eq_false_iff.mpr ?_
    intro habs
    rw [isStartState_iff] at habs
    obtain ⟨-, hocc⟩ := habs
    have : toOcc [t] k ≠ 0 := by
      rw [Ne, toOcc, List.count_eq_zero]
      simp only [List.flatMap_cons, List.flatMap_nil, List.append_nil]
      exact fun h => h hk
    have happ : toOcc (ts ++ [t]) k = toOcc ts k + toOcc [t] k := by
      simp [toOcc, List.count_append]
    omega

/-- Concrete instantiation of C1: in the pool of three chained
transitions, state 0 is a start state, and appending a transition whose
`to_states` names state 0 removes it from the start set. -/
theorem start_states_characterization_witness :
    isStartState (chain 3) 0 = true ∧
    isStartState (chain 3 ++ [chainTransition 100]) 101 = false ∧
    isStartState (chain 3 ++
      [{ id := 9
         duration := 1
         breaker := none
         check_interval := 1 / 100
         from_states := [{ id := 3, speed_pattern := SpeedPattern.full 0 }]
         to_states := [("back", { id := 0, speed_pattern := SpeedPattern.full 0 })] }]) 0
      = false := by
  refine ⟨by decide, by decide, ?_⟩
  exact (start_states_characterization (chain 3) 0
      { id := 9
        duration := 1
        breaker := none
        check_interval := 1 / 100
        from_states := [{ id := 3, speed_pattern := SpeedPattern.full 0 }]
        to_states := [("back", { id := 0, speed_pattern := SpeedPattern.full 0 })] }).2
    (by decide) (by decide)

/-! ## Claim C2 -/

/-- C2: `validate()` succeeds iff `start_states()` has exactly one
element; otherwise it returns the structural error value (the model is a
total function, so no panic is possible); and for a pool of n ≥ 1
linearly chained transitions `validate()` succeeds. -/
theorem validate_spec (ts : List MovingTransition) (n : Nat) (hn : 1 ≤ n) :
    (validate ts = .ok () ↔ ∃! k, isStartState ts k = true)
    ∧ (validate ts ≠ .ok () →
        validate ts = .error "Must have exactly one start state")
    ∧ validate (chain n) = .ok () := by
  refine ⟨validate_ok_iff ts, ?_, ?_⟩
  · intro hne
    unfold validate at hne ⊢
    by_cases h : (startStatesList ts).length = 1
    · simp [h] at hne
    · simp [h]
  · rw [validate_ok_iff]
    exact ⟨0, (isStartState_chain n 0 hn).mpr rfl,
      fun k hk => (isStartState_chain n k hn).mp hk⟩

/-- Concrete instantiation of C2: the pool of three chained transitions
validates successfully. -/
theorem validate_spec_witness : validate (chain 3) = .ok () :=
  (validate_spec (chain 3) 3 (by norm_num)).2.2

/-! ## Lemmas about the delay primitives -/

lemma dwbLoop_spec (breaker : Nat → Bool) (delay interval : ℚ) :
    ∀ (fuel k : Nat), delay ≤ ((k : ℚ) + (fuel : ℚ)) * interval →
      k ≤ dwbLoop breaker delay interval fuel k
      ∧ ((k < dwbLoop breaker delay interval fuel k
            ∧ breaker (dwbLoop breaker delay interval fuel k) = true)
          ∨ delay ≤ (dwbLoop breaker delay interval fuel k : ℚ) * interval)
      ∧ ∀ j, k ≤ j → j < dwbLoop breaker delay interval fuel k →
          (j : ℚ) * interval < delay ∧ (k < j → breaker j = false) := by
  intro fuel
  induction fuel with
  | zero =>
    intro k hk
    refine ⟨le_refl k, Or.inr ?_, ?_⟩
    · simpa using hk
    · intro j hj1 hj2
      simp only [dwbLoop] at hj2
      omega
  | succ fuel ih =>
    intro k hk
    simp only [dwbLoop]
    by_cases hcond : (k : ℚ) * interval < delay
    · rw [if_pos hcond]
      by_cases hb : breaker (k + 1) = true
      · rw [if_pos hb]
        refine ⟨by omega, Or.inl ⟨by omega, hb⟩, ?_⟩
        intro j hj1 hj2
        have hjk : j = k := by omega
        subst hjk
        exact ⟨hcond, by omega⟩
      · rw [if_neg hb]
        have hk1 : delay ≤ (((k + 1 : Nat) : ℚ) + (fuel : ℚ)) * interval := by
          push_cast
          push_cast at hk
          linarith [hk]
        obtain ⟨ih1, ih2, ih3⟩ := ih (k + 1) hk1
        refine ⟨by omega, ?_, ?_⟩
        · rcases ih2 with ⟨h1, h2⟩ | h
          · exact Or.inl ⟨by omega, h2⟩
          · exact Or.inr h
        · intro j hj1 hj2
          by_cases hjk : j = k
          · subst hjk
            exact ⟨hcond, by omega⟩
          · have hj1a : k + 1 ≤ j := by omega
            obtain ⟨hja, hjb⟩ := ih3 j hj1a hj2
            refine ⟨hja, fun _ => ?_⟩
            by_cases hjk1 : j = k + 1
            · subst hjk1
              exact Bool.eq_false_iff.mpr hb
            · exact hjb (by omega)
    · rw [if_neg hcond]
      refine ⟨le_refl k, Or.inr (le_of_not_lt hcond), ?_⟩
      intro j hj1 hj2
      omega

lemma dwbMatchLoop_spec {T : Type} (breaker : Nat → T)
    (delay interval : ℚ) :
    ∀ (fuel k : Nat), delay ≤ ((k : ℚ) + (fuel : ℚ)) * interval →
      ∃ r, dwbMatchLoop breaker delay interval fuel k (breaker k) = (r, breaker r)
        ∧ k ≤ r ∧ delay ≤ (r : ℚ) * interval
        ∧ ∀ j, k ≤ j → j < r → (j : ℚ) * interval < delay := by
  intro fuel
  induction fuel with
  | zero =>
    intro k hk
    exact ⟨k, rfl, le_refl k, by simpa using hk, fun j hj1 hj2 => by omega⟩
  | succ fuel ih =>
    intro k hk
    simp only [dwbMatchLoop]
    by_cases hcond : (k : ℚ) * interval < delay
    · rw [if_pos hcond]
      have hk1 : delay ≤ (((k + 1 : Nat) : ℚ) + (fuel : ℚ)) * interval := by
        push_cast
        push_cast at hk
        linarith [hk]
      obtain ⟨r, hr, hr1, hr2, hr3⟩ := ih (k + 1) hk1
      refine ⟨r, hr, by omega, hr2, ?_⟩
      intro j hj1 hj2
      by_cases hjk : j = k
      · subst hjk
        exact hcond
      · exact hr3 j (by omega) hj2
    · rw [if_neg hcond]
      exact ⟨k, rfl, le_refl k, le_of_not_lt hcond, fun j hj1 hj2 => by omega⟩

lemma dwbMatchLoop_count_indep {T : Type} (b b2 : Nat → T)
    (delay interval : ℚ) :
    ∀ (fuel k : Nat) (last last2 : T),
      (dwbMatchLoop b delay interval fuel k last).1
        = (dwbMatchLoop b2 delay interval fuel k last2).1 := by
  intro fuel
  induction fuel with
  | zero => intro k last last2; rfl
  | succ fuel ih =>
    intro k last last2
    simp only [dwbMatchLoop]
    by_cases hcond : (k : ℚ) * interval < delay
    · rw [if_pos hcond, if_pos hcond]
      exact ih (k + 1) (b (k + 1)) (b2 (k + 1))
    · rw [if_neg hcond, if_neg hcond]

/-! ## Claim C3 -/

/-- C3: `delay_with_breaker` evaluates the breaker once before any sleep
(call 0); if that call returns true the function performs zero sleeps
(fast-exit); otherwise it sleeps one interval and re-evaluates after
each sleep, the final sleep count r being such that the breaker returned
true at call r or the elapsed time r * interval has reached the delay,
while every earlier check happened strictly before the delay elapsed and
returned false.  Time is idealized as k sleeps = k * interval elapsed. -/
theorem delay_with_breaker_spec (breaker : Nat → Bool)
    (delay interval : ℚ) (fuel : Nat)
    (hf : delay ≤ (fuel : ℚ) * interval) :
    (breaker 0 = true → delayWithBreaker breaker delay interval fuel = 0)
    ∧ (breaker 0 = false →
        (breaker (delayWithBreaker breaker delay interval fuel) = true
          ∨ delay ≤ (delayWithBreaker breaker delay interval fuel : ℚ) * interval)
        ∧ ∀ j < delayWithBreaker breaker delay interval fuel,
            (j : ℚ) * interval < delay ∧ (0 < j → breaker j = false)) := by
  constructor
  · intro h0
    unfold delayWithBreaker
    simp [h0]
  · intro h0
    unfold delayWithBreaker
    simp only [h0, Bool.false_eq_true, if_false]
    have hk : delay ≤ (((0 : Nat) : ℚ) + (fuel : ℚ)) * interval := by
      simpa using hf
    obtain ⟨h1, h2, h3⟩ := dwbLoop_spec breaker delay interval fuel 0 hk
    constructor
    · rcases h2 with ⟨-, hb⟩ | h
      · exact Or.inl hb
      · exact Or.inr h
    · intro j hj
      exact h3 j (by omega) hj

/-- Concrete instantiation of C3 and of the specification test
`delay_with_breaker(delay=0.2, breaker=always-true, interval=0.05)`:
an always-true breaker gives an immediate return with zero sleeps. -/
theorem delay_with_breaker_spec_witness :
    delayWithBreaker (fun _ => true) (1 / 5) (1 / 20) 4 = 0 :=
  (delay_with_breaker_spec (fun _ => true) (1 / 5) (1 / 20) 4
    (by norm_num)).1 rfl

/-! ## Claim C4 -/

/-- C4: in `delay_with_breaker_match` the early-return guard
`!matches!(result, _)` is vacuously false (a wildcard match is true for
every value), so for every breaker the function polls for the full
delay: it returns (r, breaker r) where r * interval has reached the
delay, every earlier elapsed time was strictly below the delay, and the
sleep count r does not depend on the breaker at all; the returned value
is the one produced by the last breaker call. -/
theorem delay_with_breaker_match_spec {T : Type} (breaker : Nat → T)
    (delay interval : ℚ) (fuel : Nat)
    (hf : delay ≤ (fuel : ℚ) * interval) :
    (∀ t : T, matchesWildcard t = true)
    ∧ ∃ r, delayWithBreakerMatch breaker delay interval fuel = (r, breaker r)
        ∧ delay ≤ (r : ℚ) * interval
        ∧ (∀ j < r, (j : ℚ) * interval < delay)
        ∧ ∀ b2 : Nat → T,
            (delayWithBreakerMatch b2 delay interval fuel).1 = r := by
  refine ⟨fun t => rfl, ?_⟩
  have hk : delay ≤ (((0 : Nat) : ℚ) + (fuel : ℚ)) * interval := by
    simpa using hf
  obtain ⟨r, hr, -, hr2, hr3⟩ :=
    dwbMatchLoop_spec breaker delay interval fuel 0 hk
  refine ⟨r, ?_, hr2, fun j hj => hr3 j (by omega) hj, ?_⟩
  · show dwbMatchLoop breaker delay interval fuel 0 (breaker 0) = (r, breaker r)
    exact hr
  · intro b2
    show (dwbMatchLoop b2 delay interval fuel 0 (b2 0)).1 = r
    rw [dwbMatchLoop_count_indep b2 breaker delay interval fuel 0 (b2 0) (breaker 0)]
    rw [hr]

/-- Concrete instantiation of C4 with the parameters of the
specification test (delay 0.2, interval 0.05): even for a breaker whose
first value would satisfy any stop condition, the generic variant polls
the full four intervals and returns the last breaker value. -/
theorem delay_with_breaker_match_spec_witness :
    ∃ r, delayWithBreakerMatch (fun j => j) (1 / 5 : ℚ) (1 / 20) 4 = (r, r)
      ∧ (1 / 5 : ℚ) ≤ (r : ℚ) * (1 / 20) := by
  obtain ⟨-, r, h1, h2, -, -⟩ :=
    delay_with_breaker_match_spec (fun j => j) (1 / 5 : ℚ) (1 / 20) 4
      (by norm_num)
  exact ⟨r, h1, h2⟩

/-! ## Claim C5 -/

/-- C5 fails on the code: the claim puts 0 on the fixed-axis wheel and
the multiplied speed on the wheel diagonally opposite it, but for
RearRight the code zeroes front_right (not rear_right) and multiplies
front_left; already for FrontLeft the multiplied wheel is front_right,
which is laterally, not diagonally, opposite front_left. -/
theorem drift_claim_counterexample :
    (MovingState.drift FixedAxis.rearRight 100 0).speed_pattern ≠
        driftClaimed FixedAxis.rearRight 100
      ∧ getWheel (MovingState.drift FixedAxis.rearRight 100 0).speed_pattern
          FixedAxis.rearRight.wheel = 100
      ∧ (MovingState.drift FixedAxis.frontLeft 100 0).speed_pattern ≠
        driftClaimed FixedAxis.frontLeft 100
      ∧ getWheel (MovingState.drift FixedAxis.frontLeft 100 0).speed_pattern
          (diagOpposite FixedAxis.frontLeft.wheel) = 100 := by
  refine ⟨?_, by decide, ?_, by decide⟩
  · norm_num [MovingState.drift, driftClaimed, MovementConfig.default,
      FixedAxis.wheel, diagOpposite]
  · norm_num [MovingState.drift, driftClaimed, MovementConfig.default,
      FixedAxis.wheel, diagOpposite, ratTrunc]
    decide

/-- C5 amended: for every fixed_axis and speed, `drift` yields a
PerWheel (Individual) pattern in which the wheel given by `zeroWheel`
(the named wheel for FrontLeft and RearLeft, the front wheel of the
opposite side for RearRight, the rear wheel of the opposite side for
FrontRight) is 0, the wheel laterally opposite that zero wheel (same
axle, other side) is speed times the default diagonal multiplier 1.53
truncated toward zero, and the remaining two wheels are speed. -/
theorem drift_amended (fixed_axis : FixedAxis) (speed : Int) (id : Nat) :
    (MovingState.drift fixed_axis speed id).speed_pattern.isIndividual = true
    ∧ getWheel (MovingState.drift fixed_axis speed id).speed_pattern
        (zeroWheel fixed_axis) = 0
    ∧ getWheel (MovingState.drift fixed_axis speed id).speed_pattern
        (lateralOpposite (zeroWheel fixed_axis)) =
        ratTrunc ((speed : ℚ) * MovementConfig.default.diagonal_multiplier)
    ∧ ∀ w, w ≠ zeroWheel fixed_axis →
        w ≠ lateralOpposite (zeroWheel fixed_axis) →
        getWheel (MovingState.drift fixed_axis speed id).speed_pattern w
          = speed := by
  cases fixed_axis <;>
    refine ⟨rfl, rfl, rfl, ?_⟩ <;>
      intro w hw1 hw2 <;>
        cases w <;>
          first
            | rfl
            | exact absurd rfl hw1
            | exact absurd rfl hw2

/-- Concrete instantiation of the amended C5 at the specification test
input drift(FrontLeft, 100): front_left is 0, front_right carries the
multiplied speed, and that multiplied speed evaluates to 153. -/
theorem drift_amended_witness :
    getWheel (MovingState.drift FixedAxis.frontLeft 100 0).speed_pattern
        (zeroWheel FixedAxis.frontLeft) = 0
      ∧ getWheel (MovingState.drift FixedAxis.frontLeft 100 0).speed_pattern
          (lateralOpposite (zeroWheel FixedAxis.frontLeft)) =
          ratTrunc ((100 : ℚ) * MovementConfig.default.diagonal_multiplier)
      ∧ ratTrunc ((100 : ℚ) * MovementConfig.default.diagonal_multiplier) = 153
      ∧ Wheel.frontRight ≠ zeroWheel FixedAxis.frontLeft :=
  ⟨(drift_amended FixedAxis.frontLeft 100 0).2.1,
    (drift_amended FixedAxis.frontLeft 100 0).2.2.1,
    by norm_num [ratTrunc, MovementConfig.default], by decide⟩

/-! ## Claim C6 -/

/-- C6: `MovingTransition::new(duration)` fails (with the
invalid-duration error value, the string the source uses) iff
duration < 0, and on success the transition has check_interval 0.01,
no breaker, an empty from_states list and an empty to_states map; in
particular new(-1.0) fails. -/
theorem moving_transition_new_spec (id : Nat) (d : ℚ) :
    ((∃ e, MovingTransition.new id d = .error e) ↔ d < 0)
    ∧ MovingTransition.new id (-1) = .error "Duration cannot be negative"
    ∧ ∀ t, MovingTransition.new id d = .ok t →
        t.duration = d ∧ t.breaker = none ∧ t.check_interval = 1 / 100
          ∧ t.from_states = [] ∧ t.to_states = [] := by
  refine ⟨?_, by norm_num [MovingTransition.new], ?_⟩
  · unfold MovingTransition.new
    by_cases h : d < 0
    · rw [if_pos h]
      simp [h]
    · rw [if_neg h]
      simp [h]
  · intro t ht
    unfold MovingTransition.new at ht
    by_cases h : d < 0
    · rw [if_pos h] at ht
      cases ht
    · rw [if_neg h] at ht
      cases ht
      exact ⟨rfl, rfl, rfl, rfl, rfl⟩

/-- Concrete instantiation of C6: new(-1.0) fails, new(2.0) succeeds
with the default fields. -/
theorem moving_transition_new_spec_witness :
    MovingTransition.new 0 (-1) = .error "Duration cannot be negative"
      ∧ ((∃ e, MovingTransition.new 0 2 = .error e) ↔ (2 : ℚ) < 0) :=
  ⟨(moving_transition_new_spec 0 (-1)).2.1,
    (moving_transition_new_spec 0 2).1⟩

/-! ## Claim C7 -/

/-- C7: `set_motors_speed` fails with the length-mismatch error whenever
the speeds length differs from the motor count (the length check runs
before anything can be written); when the lengths match and no transport
is attached it succeeds as a no-op, returning the controller unchanged
with nothing written. -/
theorem set_motors_speed_spec (c : CloseLoopController) (speeds : List ℚ) :
    (speeds.length ≠ c.motor_infos.length →
      c.set_motors_speed speeds =
        .error "Length of speeds must equal the number of motors")
    ∧ (speeds.length = c.motor_infos.length → c.serial = none →
        c.set_motors_speed speeds = .ok c) := by
  unfold CloseLoopController.set_motors_speed
  constructor
  · intro h
    rw [if_pos h]
  · intro h hs
    rw [if_neg (by omega)]
    rw [hs]

/-- Concrete instantiation of C7 on the default 4-motor controller with
no transport: 3 speeds fail, 4 speeds succeed unchanged. -/
theorem set_motors_speed_spec_witness :
    CloseLoopController.set_motors_speed ⟨none, CLASSIC_MIS⟩ [1, 2, 3] =
        .error "Length of speeds must equal the number of motors"
      ∧ CloseLoopController.set_motors_speed ⟨none, CLASSIC_MIS⟩ [1, 2, 3, 4] =
        .ok ⟨none, CLASSIC_MIS⟩ :=
  ⟨(set_motors_speed_spec ⟨none, CLASSIC_MIS⟩ [1, 2, 3]).1 (by decide),
    (set_motors_speed_spec ⟨none, CLASSIC_MIS⟩ [1, 2, 3, 4]).2 (by decide) rfl⟩

/-! ## Claim C8 -/

lemma uniqueCheck_iff (l : List MotorInfo) : ∀ seen,
    uniqueCheck l seen = true ↔ (l.Nodup ∧ ∀ x ∈ l, x ∉ seen) := by
  induction l with
  | nil =>
    intro seen
    simp [uniqueCheck]
  | cons mi rest ih =>
    intro seen
    simp only [uniqueCheck]
    by_cases hm : mi ∈ seen
    · rw [if_pos hm]
      constructor
      · intro h
        cases h
      · rintro ⟨-, hall⟩
        exact absurd hm (hall mi (List.mem_cons_self mi rest))
    · rw [if_neg hm]
      rw [ih (mi :: seen)]
      constructor
      · rintro ⟨hnd, hall⟩
        refine ⟨List.nodup_cons.mpr ⟨fun hmem => ?_, hnd⟩, ?_⟩
        · exact (hall mi hmem) (List.mem_cons_self mi seen)
        · intro x hx
          rcases List.mem_cons.mp hx with rfl | hx
          · exact hm
          · exact fun hxs => (hall x hx) (List.mem_cons_of_mem mi hxs)
      · rintro ⟨hnd, hall⟩
        obtain ⟨hmi, hrest⟩ := List.nodup_cons.mp hnd
        refine ⟨hrest, ?_⟩
        intro x hx hxm
        rcases List.mem_cons.mp hxm with rfl | hxs
        · exact hmi hx
        · exact (hall x (List.mem_cons_of_mem mi hx)) hxs

/-- C8 fails on the code: the constructor checks uniqueness of whole
MotorInfo values (code_sign and direction together), so a motor list
with a duplicated identifier code_sign 1 but opposite directions is
accepted and a controller is returned. -/
theorem controller_new_counterexample :
    (MotorInfo.mk 1 1).code_sign = (MotorInfo.mk 1 (-1)).code_sign
      ∧ CloseLoopController.new (some [⟨1, 1⟩, ⟨1, -1⟩]) =
        .ok { serial := none, motor_infos := [⟨1, 1⟩, ⟨1, -1⟩] } := by
  exact ⟨rfl, rfl⟩

/-- C8 amended: construction fails, returning no controller, iff the
motor list contains two entries identical in both code_sign and
direction; on success the controller carries exactly the given motor
list and no transport. -/
theorem controller_new_spec (mis : List MotorInfo) :
    ((∃ e, CloseLoopController.new (some mis) = .error e) ↔ ¬mis.Nodup)
    ∧ (¬mis.Nodup → CloseLoopController.new (some mis) =
        .error "Motor infos must be unique")
    ∧ ∀ c, CloseLoopController.new (some mis) = .ok c →
        c.serial = none ∧ c.motor_infos = mis := by
  have hiff : uniqueCheck mis [] = true ↔ mis.Nodup := by
    rw [uniqueCheck_iff mis []]
    simp
  have hnew : CloseLoopController.new (some mis) =
      (if uniqueCheck mis [] = true then
        Except.ok { serial := none, motor_infos := mis }
      else Except.error "Motor infos must be unique") := rfl
  rw [hnew]
  by_cases h : uniqueCheck mis [] = true
  · rw [if_pos h]
    refine ⟨?_, ?_, ?_⟩
    · simp [hiff.mp h]
    · intro hnd
      exact absurd (hiff.mp h) hnd
    · intro c hc
      cases hc
      exact ⟨rfl, rfl⟩
  · rw [if_neg h]
    refine ⟨?_, fun _ => rfl, ?_⟩
    · constructor
      · intro _ hnd
        exact h (hiff.mpr hnd)
      · intro _
        exact ⟨"Motor infos must be unique", rfl⟩
    · intro c hc
      cases hc

/-- Concrete instantiation of the amended C8: a fully duplicated
MotorInfo entry is rejected with the explicit error. -/
theorem controller_new_spec_witness :
    CloseLoopController.new (some [⟨1, 1⟩, ⟨1, 1⟩]) =
      .error "Motor infos must be unique" :=
  (controller_new_spec [⟨1, 1⟩, ⟨1, 1⟩]).2.1 (by decide)

/-! ## Claim C9 -/

/-- C9 fails on the code: only the first usage of the list is consulted
(the source comment says it resolves just the first usage), so a later
usage with an out-of-range sampler index (here 5, with a single sampler)
does not cause a failure and an updater is returned. -/
theorem construct_updater_counterexample :
    ∃ u, construct_updater [Sampler.direct (fun _ => 0)]
      [⟨0, []⟩, ⟨5, []⟩] = .ok u :=
  ⟨_, rfl⟩

/-- C9 amended: `construct_updater` fails with an explicit error,
returning no updater, whenever the usage list is empty, and whenever the
FIRST usage names a sampler index that is out of range; usages after the
first are ignored. -/
theorem construct_updater_spec (samplers : List Sampler)
    (usages : List SamplerUsage) :
    (usages = [] → construct_updater samplers usages =
      .error "Can't resolve the empty usage list")
    ∧ ∀ u rest, usages = u :: rest →
        samplers.length ≤ u.used_sampler_index →
        construct_updater samplers usages =
          .error "Sampler index out of bounds" := by
  constructor
  · rintro rfl
    rfl
  · rintro u rest rfl h
    have hred : construct_updater samplers (u :: rest) =
        (if h2 : samplers.length ≤ u.used_sampler_index then
          Except.error "Sampler index out of bounds"
        else
          match samplers.get ⟨u.used_sampler_index, by omega⟩ with
          | .sequence s => resolve_seq_sampler s u.required_data_indexes
          | .indexed s => resolve_idx_sampler s u.required_data_indexes
          | .direct s => resolve_drc_sampler s u.required_data_indexes) := rfl
    rw [hred, dif_pos h]

/-- Concrete instantiation of the amended C9: the empty usage list and a
first usage with index 5 against a single sampler both fail. -/
theorem construct_updater_spec_witness :
    construct_updater [Sampler.direct (fun _ => 0)] [] =
        .error "Can't resolve the empty usage list"
      ∧ construct_updater [Sampler.direct (fun _ => 0)] [⟨5, []⟩] =
        .error "Sampler index out of bounds" :=
  ⟨(construct_updater_spec [Sampler.direct (fun _ => 0)] []).1 rfl,
    (construct_updater_spec [Sampler.direct (fun _ => 0)] [⟨5, []⟩]).2
      ⟨5, []⟩ [] rfl (by decide)⟩

/-! ## Claim C10 -/

/-- C10: for a Direct sampler and a non-empty required index list, the
updater built by `construct_updater` does not return the reading itself:
the reading is cast to a 64-bit integer (truncation toward zero) and for
each required index i the bit (reading as i64 >> i) & 1 is returned as a
0/1 value, one per required index (a single value for one index, a
sequence for several). -/
theorem construct_updater_direct_bits (samplers : List Sampler)
    (f : Unit → ℚ) (usage : SamplerUsage) (rest : List SamplerUsage)
    (hget : samplers.get? usage.used_sampler_index =
      some (Sampler.direct f)) :
    (∀ i, usage.required_data_indexes = [i] →
      construct_updater samplers (usage :: rest) =
        .ok (.single (fun u => ((bitOf (ratTrunc (f u)) i : Int) : ℚ))))
    ∧ (∀ i j l, usage.required_data_indexes = i :: j :: l →
        construct_updater samplers (usage :: rest) =
          .ok (.sequence (fun u => (i :: j :: l).map
            (fun idx => ((bitOf (ratTrunc (f u)) idx : Int) : ℚ)))))
    ∧ ∀ d i, bitOf d i = 0 ∨ bitOf d i = 1 := by
  have hlt : usage.used_sampler_index < samplers.length := by
    by_contra hge
    rw [List.get?_eq_none.mpr (by omega)] at hget
    cases hget
  have hgetfin : samplers.get ⟨usage.used_sampler_index, hlt⟩ =
      Sampler.direct f := by
    have h2 := List.get?_eq_get hlt
    rw [h2] at hget
    exact Option.some_injective _ hget
  have hred : construct_updater samplers (usage :: rest) =
      (if h2 : samplers.length ≤ usage.used_sampler_index then
        Except.error "Sampler index out of bounds"
      else
        match samplers.get ⟨usage.used_sampler_index, by omega⟩ with
        | .sequence s => resolve_seq_sampler s usage.required_data_indexes
        | .indexed s => resolve_idx_sampler s usage.required_data_indexes
        | .direct s => resolve_drc_sampler s usage.required_data_indexes) := rfl
  refine ⟨?_, ?_, ?_⟩
  · intro i hreq
    rw [hred, dif_neg (by omega)]
    rw [hgetfin, hreq]
    rfl
  · intro i j l hreq
    rw [hred, dif_neg (by omega)]
    rw [hgetfin, hreq]
    rfl
  · intro d i
    unfold bitOf
    omega

/-- Concrete instantiation of C10: a Direct sampler reading 5 with the
single required index 1 yields the updater returning bit 1 of 5. -/
theorem construct_updater_direct_bits_witness :
    construct_updater [Sampler.direct (fun _ => (5 : ℚ))] [⟨0, [1]⟩] =
        .ok (.single (fun u =>
          ((bitOf (ratTrunc ((fun _ => (5 : ℚ)) u)) 1 : Int) : ℚ)))
      ∧ bitOf (ratTrunc (5 : ℚ)) 1 = 0 :=
  ⟨(construct_updater_direct_bits [Sampler.direct (fun _ => (5 : ℚ))]
      (fun _ => (5 : ℚ)) ⟨0, [1]⟩ [] rfl).1 1 rfl,
    by decide⟩

end KazuRs
